import Mathlib

/-!
Verification development for the recipe recommender backend
(`python-backend/app.py`).  Strings are modelled as `List Char`; the
regex passes of `clean_ing` are modelled as structural character
scanners whose behaviour matches the Python `re.sub` calls; floating
point scores are modelled as rationals.
-/

namespace RecipeApp

/-- Strings of the model: lists of characters. -/
abbrev Str := List Char

/-- Model of the regex class `\w` (word character), ASCII view:
letters, digits and underscore. -/
def isWordC (c : Char) : Bool := c.isAlphanum || c == '_'

/-- Model of the regex class `\s` (whitespace): the six ASCII
whitespace characters recognised by Python's `str.strip` and `\s`. -/
def isSpaceC (c : Char) : Bool :=
  c == ' ' || c == '\t' || c == '\n' || c == '\r' || c == '\x0b' || c == '\x0c'

/-- `str.lower()`: character-wise lowering. -/
def lowerStr (s : Str) : Str := s.map Char.toLower

/-- Scanner for `re.sub(r'\([^)]*\)', ' ', s)`.  While no `(` is
pending the text is copied; after a `(` the characters are buffered
(in reverse) until a `)` arrives, in which case the whole group is
replaced by one space; a `(` that never finds a `)` is emitted
unchanged together with its buffered tail (the regex cannot match
anywhere inside it, as no `)` exists further right). -/
def rpAux : Option (List Char) → List Char → List Char
  | none, [] => []
  | some buf, [] => '(' :: buf.reverse
  | none, c :: rest =>
    if c = '(' then rpAux (some []) rest else c :: rpAux none rest
  | some buf, c :: rest =>
    if c = ')' then ' ' :: rpAux none rest else rpAux (some (c :: buf)) rest

def removeParens (l : Str) : Str := rpAux none l

/-- The unit alternatives of `UNIT_PAT`, in the source's order. -/
def unitsList : List Str :=
  ["g", "kg", "gram", "grams", "ml", "l", "cup", "cups", "tbsp", "tsp",
   "ounce", "oz", "clove", "slice"].map String.toList

/-- Flush the current word-run buffer (stored reversed): a maximal
`\w`-run equal to one of the unit alternatives is replaced by a single
space, any other run is kept. -/
def flushWord (buf : List Char) (t : List Char) : List Char :=
  match buf with
  | [] => t
  | _ :: _ => (if unitsList.contains buf.reverse then [' '] else buf.reverse) ++ t

/-- Scanner for `re.sub(UNIT_PAT, ' ', s)` where
`UNIT_PAT = r'\b(g|kg|...|slice)\b'`.  Since every alternative consists
of word characters only and both ends of a match must be at a `\b`
boundary, a match is exactly a maximal `\w`-run equal to one of the
alternatives; the scanner accumulates `\w`-runs and replaces the ones
that are unit tokens by a space. -/
def ruAux (buf : List Char) : List Char → List Char
  | [] => flushWord buf []
  | c :: rest =>
    if isWordC c then ruAux (c :: buf) rest
    else flushWord buf (c :: ruAux [] rest)

def removeUnits (l : Str) : Str := ruAux [] l

/-- States of the quantity scanner: outside a match / inside `\d+` /
just after `\d+` followed by `/` / inside the second `\d+`. -/
inductive RQState | norm | dig | slash | dig2
deriving DecidableEq

/-- Scanner for `re.sub(r'\d+(/\d+)?', ' ', s)`: a maximal digit run,
optionally followed by `/` and a second maximal digit run, is replaced
by a single space; a `/` not followed by a digit is kept. -/
def rqGo : RQState → List Char → List Char
  | .norm, [] => []
  | .norm, c :: r => if c.isDigit then rqGo .dig r else c :: rqGo .norm r
  | .dig, [] => [' ']
  | .dig, c :: r =>
    if c.isDigit then rqGo .dig r
    else if c = '/' then rqGo .slash r
    else ' ' :: c :: rqGo .norm r
  | .slash, [] => [' ', '/']
  | .slash, c :: r =>
    if c.isDigit then rqGo .dig2 r else ' ' :: '/' :: c :: rqGo .norm r
  | .dig2, [] => [' ']
  | .dig2, c :: r => if c.isDigit then rqGo .dig2 r else ' ' :: c :: rqGo .norm r

def removeQuantity (l : Str) : Str := rqGo .norm l

/-- `re.sub(r'[^\w\s]', ' ', s)`: every character that is neither a
word character nor whitespace becomes a space. -/
def removePunct (l : Str) : Str :=
  l.map fun c => if isWordC c || isSpaceC c then c else ' '

/-- Scanner for `re.sub(r'\s+', ' ', s)`: the flag records whether we
are inside a whitespace run. -/
def cwAux (inSp : Bool) : List Char → List Char
  | [] => []
  | c :: rest =>
    if isSpaceC c then
      if inSp then cwAux true rest else ' ' :: cwAux true rest
    else c :: cwAux false rest

def collapseWs (l : Str) : Str := cwAux false l

/-- `.strip()` of the trailing end. -/
def dropTrailing (l : Str) : Str := (l.reverse.dropWhile isSpaceC).reverse

/-- Python `str.strip()`. -/
def pyStrip (l : Str) : Str := dropTrailing (l.dropWhile isSpaceC)

/-- `clean_ing` (app.py lines 129-135): lowercase, drop parenthesised
asides, drop unit tokens, drop quantities, drop punctuation, collapse
whitespace and strip. -/
def clean_ing (s : Str) : Str :=
  pyStrip (collapseWs (removePunct (removeQuantity (removeUnits (removeParens (lowerStr s))))))

/-- `clean_list`: element-wise cleaning. -/
def clean_list (lst : List Str) : List Str := lst.map clean_ing

/-! Canonical-form vocabulary for reasoning about `clean_ing`: a
cleaned string is a list of non-empty word-character words joined by
single spaces. -/

/-- Tail of a space-separated join: a leading space before each word. -/
def joinTail : List Str → Str
  | [] => []
  | w :: ws => ' ' :: (w ++ joinTail ws)

/-- Words joined by single spaces. -/
def joinW : List Str → Str
  | [] => []
  | w :: ws => w ++ joinTail ws

/-- Effect of the unit pass on one maximal word run: unit tokens
become a single space. -/
def unitHole (w : Str) : Str := if unitsList.contains w then [' '] else w

/-- A word as produced by `clean_ing`: non-empty, made of word
characters, digit-free and lowercase-fixed. -/
def GoodWord (w : Str) : Prop :=
  w ≠ [] ∧ ∀ c ∈ w, isWordC c = true ∧ c.isDigit = false ∧ c.toLower = c

def GoodWords (ws : List Str) : Prop := ∀ w ∈ ws, GoodWord w

/-! ## Substitution index and matcher -/

/-- The static substitution dictionary `SUBS` (app.py lines 143-167),
in the source's insertion order. -/
def SUBS : List (Str × List Str) :=
  [("curd", ["yogurt", "dahi"]),
   ("capsicum", ["bell pepper"]),
   ("maida", ["all purpose flour", "flour"]),
   ("paneer", ["cottage cheese", "cheese"]),
   ("cottage cheese", ["paneer"]),
   ("coriander", ["cilantro"]),
   ("cream", ["milk", "malai"]),
   ("sugar", ["jaggery", "gur"]),
   ("yogurt", ["curd", "dahi"]),
   ("dahi", ["yogurt", "curd"]),
   ("ghee", ["clarified butter", "butter"]),
   ("clarified butter", ["ghee"]),
   ("atta", ["whole wheat flour", "wheat flour"]),
   ("besan", ["gram flour", "chickpea flour"]),
   ("gram flour", ["besan", "chickpea flour"]),
   ("jeera", ["cumin", "cumin seeds"]),
   ("cumin", ["jeera", "cumin seeds"]),
   ("haldi", ["turmeric", "turmeric powder"]),
   ("turmeric", ["haldi", "turmeric powder"]),
   ("dhaniya", ["coriander", "cilantro"]),
   ("methi", ["fenugreek"]),
   ("hing", ["asafoetida"]),
   ("ajwain", ["carom seeds"])].map
    fun kv => (kv.1.toList, kv.2.map String.toList)

/-- Python `dict.get(key, [])` over the (duplicate-free) `SUBS` table. -/
def dictGet : List (Str × List Str) → Str → List Str
  | [], _ => []
  | (k, v) :: rest, key => if k = key then v else dictGet rest key

/-- `get_sub` (app.py lines 170-172): clean the term, look it up. -/
def get_sub (i : Str) : List Str := dictGet SUBS (clean_ing i)

/-- `needle in hay` (Python substring test; the empty needle occurs in
everything). -/
def isPrefixB : Str → Str → Bool
  | [], _ => true
  | _ :: _, [] => false
  | a :: as_, b :: bs => a == b && isPrefixB as_ bs

def occursIn (n : Str) : Str → Bool
  | [] => isPrefixB n []
  | h :: t => isPrefixB n (h :: t) || occursIn n t

/-- The direct-overlap test of the matcher loop (app.py line 220):
`r in u or u in r or r == u`. -/
def overlapB (r u : Str) : Bool := occursIn r u || occursIn u r || r == u

/-- A matched recipe term is appended to `present` as
`r + "(sub->" + u + ")"` when satisfied by forward substitution. -/
def annot (r u : Str) : Str := r ++ "(sub->".toList ++ u ++ [')']

/-- Outcome of the matcher loop for one recipe term: an entry appended
to `present` (with a recorded substitution or not), or `missing`. -/
inductive TermOutcome
  | found (entry : Str) (sub : Option Str)
  | miss
deriving DecidableEq

/-- The substitution loop of the matcher (app.py lines 229-240): user
terms in order; for each, forward check `u in get_sub(r)` first, then
reverse check `r in get_sub(u)`; first hit wins. -/
def subScan (r : Str) : List Str → TermOutcome
  | [] => .miss
  | u :: rest =>
    if (get_sub r).contains u then .found (annot r u) (some u)
    else if (get_sub u).contains r then .found r none
    else subScan r rest

/-- Classification of one recipe term `r` by the matcher loop (app.py
lines 215-243): direct overlap against any user term first, then the
substitution loop. -/
def matchTerm (userClean : List Str) (r : Str) : TermOutcome :=
  if userClean.any fun u => overlapB r u then .found r none
  else subScan r userClean

/-- Reference formulation of the matcher's per-term rule, written from
the (amended) specification: direct overlap wins outright; otherwise
the first user term `u` (in the user list's order) satisfying either
the forward check (`u` among `r`'s substitutes) or the reverse check
(`r` among `u`'s substitutes) decides the outcome, forward being
checked before reverse for that same `u`. -/
def matchTermSpec (userClean : List Str) (r : Str) : TermOutcome :=
  if userClean.any fun u => overlapB r u then .found r none
  else
    match userClean.find? fun u => (get_sub r).contains u || (get_sub u).contains r with
    | some u =>
      if (get_sub r).contains u then .found (annot r u) (some u) else .found r none
    | none => .miss

/-- Strip the `"(sub->u)"` annotation from a `present` entry: cleaned
terms never contain `(`, so everything before the first `(` is the
recipe term. -/
def stripAnnot (e : Str) : Str := e.takeWhile fun c => c ≠ '('

/-- The matcher's accumulated `present`, `missing`, `subs_used` for a
whole recipe, in the recipe's declared order. -/
def matchLists (userClean : List Str) : List Str → List Str × List Str × List (Str × Str)
  | [] => ([], [], [])
  | r :: rest =>
    let acc := matchLists userClean rest
    match matchTerm userClean r with
    | .found e (some u) => (e :: acc.1, acc.2.1, (r, u) :: acc.2.2)
    | .found e none => (e :: acc.1, acc.2.1, acc.2.2)
    | .miss => (acc.1, r :: acc.2.1, acc.2.2)

/-! ## Ranker -/

/-- One corpus row as the ranker reads it: `name`, raw `ingredients`
and carried metadata; `row["clean"]` is recomputed as
`clean_list ingredients`, exactly how `build_embeddings` fills it. -/
structure Row where
  name : Str
  ingredients : List Str
  cuisine : Str := []
  tags : Str := []
deriving DecidableEq

/-- The boost formula `score * (1 + match_ratio)` (app.py line 252). -/
def boostWith (score ratio : ℚ) : ℚ := score * (1 + ratio)

/-- `boosted_score` (app.py lines 250-254): boost only when the recipe
has ingredients, else the raw score. -/
def boostedOf (score : ℚ) (presentCount totalCount : ℕ) : ℚ :=
  if 0 < totalCount then boostWith score ((presentCount : ℚ) / (totalCount : ℚ))
  else score

/-- One output record of `recommend` (app.py lines 259-270). -/
structure RecOut where
  name : Str
  ingredients : List Str
  present : List Str
  missing : List Str
  score : ℚ
  original_score : ℚ
  match_count : ℕ
  cuisine : Str
  tags : Str
  substitutions : List (Str × Str)
deriving DecidableEq

/-- Build the output record for one row and its raw cosine score. -/
def mkOut (userClean : List Str) (row : Row) (score : ℚ) : RecOut :=
  let m := matchLists userClean (clean_list row.ingredients)
  { name := row.name
    ingredients := row.ingredients
    present := m.1
    missing := m.2.1
    score := boostedOf score m.1.length (clean_list row.ingredients).length
    original_score := score
    match_count := m.1.length
    cuisine := row.cuisine
    tags := row.tags
    substitutions := m.2.2 }

/-- The inclusion filter (app.py line 258):
`(present_count > 0 or score > 0.5) and len(missing) <= max_missing`
(`score` being the raw cosine score). -/
def keepRec (maxMissing : ℤ) (o : RecOut) : Bool :=
  (decide (0 < o.match_count) || decide ((1 : ℚ)/2 < o.original_score)) &&
    decide ((o.missing.length : ℤ) ≤ maxMissing)

/-- The `out` list built by the loop over `enumerate(sims)` (app.py
lines 209-270), before sorting and truncation. -/
def recommendOut (ings : List Str) (rows : List Row) (sims : List ℚ)
    (maxMissing : ℤ) : List RecOut :=
  (((rows.zip sims).map fun p => mkOut (ings.map clean_ing) p.1 p.2).filter
    (keepRec maxMissing))

/-- The sort relation of
`sorted(out, key=lambda x: (x["match_count"], x["score"]), reverse=True)`:
`a` may precede `b` iff `a`'s key pair is lexicographically ≥ `b`'s. -/
def rankRel (a b : RecOut) : Prop :=
  b.match_count < a.match_count ∨
    (b.match_count = a.match_count ∧ b.score ≤ a.score)

instance : DecidableRel rankRel := fun a b => by unfold rankRel; infer_instance

instance : IsTotal RecOut rankRel :=
  ⟨fun a b => by
    unfold rankRel
    rcases Nat.lt_trichotomy a.match_count b.match_count with h | h | h
    · exact Or.inr (Or.inl h)
    · rcases le_total b.score a.score with hs | hs
      · exact Or.inl (Or.inr ⟨h.symm, hs⟩)
      · exact Or.inr (Or.inr ⟨h, hs⟩)
    · exact Or.inl (Or.inl h)⟩

instance : IsTrans RecOut rankRel :=
  ⟨fun a b c hab hbc => by
    unfold rankRel at *
    rcases hab with h1 | ⟨h1, hs1⟩ <;> rcases hbc with h2 | ⟨h2, hs2⟩
    · exact Or.inl (h2.trans h1)
    · exact Or.inl (h2 ▸ h1)
    · exact Or.inl (h1 ▸ h2)
    · exact Or.inr ⟨h2.trans h1, hs2.trans hs1⟩⟩

/-- Python slicing `l[:n]`, including the negative-`n` case
(`l[:n] = l[:max(0, len(l)+n)]` for `n < 0`). -/
def pySlice (l : List RecOut) (n : ℤ) : List RecOut :=
  if 0 ≤ n then l.take n.toNat else l.take (l.length + n).toNat

/-- `recommend` (app.py lines 195-273), with the externally computed
cosine similarities `sims` passed in place of the embedding calls.
Python's `sorted` is a stable sort; a stable sort with respect to a
total transitive relation is a unique function, modelled here by the
stable `List.insertionSort`. -/
def recommend (ings : List Str) (rows : List Row) (sims : List ℚ)
    (topN maxMissing : ℤ) : List RecOut :=
  pySlice (List.insertionSort rankRel (recommendOut ings rows sims maxMissing)) topN

/-! ## Nutrition -/

/-- The static nutrition table `NUT` (app.py lines 280-286), in the
source's insertion order. -/
def NUT : List (Str × ℕ) :=
  [("rice", 130), ("onion", 40), ("tomato", 18), ("paneer", 265),
   ("ghee", 112), ("milk", 42), ("yogurt", 59), ("curd", 59),
   ("flour", 364), ("wheat", 340), ("potato", 77), ("carrot", 41),
   ("chicken", 165), ("mutton", 294), ("fish", 206), ("egg", 155),
   ("lentil", 116), ("dal", 116), ("chickpea", 164), ("gram", 164)].map
    fun kv => (kv.1.toList, kv.2)

/-- `nutrition` (app.py lines 288-295): for each ingredient, add the
value of every table key occurring in the cleaned term; returns the
`calories` field. -/
def nutrition (lst : List Str) : ℕ :=
  lst.foldl
    (fun cals i =>
      NUT.foldl (fun a kv => if occursIn kv.1 (clean_ing i) then a + kv.2 else a) cals)
    0

/-! ## Corpus loading: `parse_ing` -/

/-- The values an `ingredients` cell can hold once read by pandas: an
actual list, a missing value (NaN), or a string. -/
inductive PyCell
  | pylist (l : List Str)
  | nan
  | pystr (s : Str)

/-- The non-sequence Python literals relevant here. -/
inductive PyLit
  | intLit (n : ℕ)
  | listLit (l : List Str)

/-- Modelled fragment of `ast.literal_eval` on strings: a non-empty
all-digit string parses as an integer literal; everything else raises
(`.none`).  Faithful on the inputs used below ("42" parses to the
integer 42; "salt, pepper" raises `SyntaxError`). -/
def litEval (s : Str) : Option PyLit :=
  if s ≠ [] && s.all Char.isDigit then some (.intLit 0) else none

/-- Python `str.strip` applied to each comma-separated piece, empty
pieces dropped: `[p.strip() for p in str(x).split(",") if p.strip()]`. -/
def commaSplit (s : Str) : List Str :=
  ((s.splitOn ',').map pyStrip).filter fun p => p ≠ []

/-- Result of `parse_ing`: either a parsed value or an uncaught
exception (which aborts the whole corpus load). -/
inductive ParseResult
  | ok (l : List Str)
  | typeError
deriving DecidableEq

/-- `parse_ing` (app.py lines 62-74).  List input is returned as is;
NaN yields `[]`; otherwise `ast.literal_eval` is tried: on failure the
bare `except` falls back to comma-splitting, on success a list/tuple is
returned, but any other literal reaches the trailing `return list(val)`
outside the `try`, where `list` raises `TypeError` uncaught. -/
def parse_ing : PyCell → ParseResult
  | .pylist l => .ok l
  | .nan => .ok []
  | .pystr s =>
    match litEval s with
    | none => .ok (commaSplit s)
    | some (.listLit l) => .ok l
    | some (.intLit _) => .typeError

/-! # Theorems -/

/-! ## C1: matcher precedence -/

/-- C1 counterexample: with user terms `["dhaniya", "cilantro"]` and
recipe term `"coriander"`, no direct overlap holds and the user term
`"cilantro"` satisfies forward substitution for `"coriander"`; yet the
matcher produces the plain (reverse-substitution) outcome with no
`substitutionsUsed` entry, because the earlier user term `"dhaniya"`
satisfies the reverse check first.  This refutes the claim that a
forward-substitution outcome is produced whenever some user term
satisfies forward substitution. -/
theorem C1_counterexample :
    (["dhaniya".toList, "cilantro".toList].all
        fun u => !overlapB "coriander".toList u) = true ∧
    "cilantro".toList ∈ ["dhaniya".toList, "cilantro".toList] ∧
    "cilantro".toList ∈ get_sub "coriander".toList ∧
    matchTerm ["dhaniya".toList, "cilantro".toList] "coriander".toList =
      .found "coriander".toList none ∧
    matchTerm ["dhaniya".toList, "cilantro".toList] "coriander".toList ≠
      .found (annot "coriander".toList "cilantro".toList) (some "cilantro".toList) := by
  refine ⟨by decide, by decide, by decide, by decide, by decide⟩

/-- The substitution loop `subScan` computes the first user term
satisfying the forward-or-reverse test, with forward deciding the
shape of the outcome. -/
theorem subScan_eq_find (r : Str) (l : List Str) :
    subScan r l =
      match l.find? fun u => (get_sub r).contains u || (get_sub u).contains r with
      | some u =>
        if (get_sub r).contains u then .found (annot r u) (some u) else .found r none
      | none => .miss := by
  induction l with
  | nil => rfl
  | cons u rest ih =>
    by_cases h1 : ((get_sub r).contains u) = true
    · rw [List.find?_cons_of_pos rest (by rw [h1]; rfl)]
      simp only [subScan, h1, if_true]
    · have h1f : ((get_sub r).contains u) = false := by
        simpa using h1
      by_cases h2 : ((get_sub u).contains r) = true
      · rw [List.find?_cons_of_pos rest (by rw [h1f, h2]; rfl)]
        simp only [subScan, h1, h2, h1f, if_true, if_false, Bool.false_eq_true]
      · have h2f : ((get_sub u).contains r) = false := by
          simpa using h2
        rw [List.find?_cons_of_neg rest (by rw [h1f, h2f]; exact Bool.false_ne_true)]
        simp only [subScan, h1, h2, if_false]
        exact ih

/-- C1 (amended): per recipe term, direct overlap wins outright;
otherwise the first user term (scanned in order) satisfying forward or
reverse substitution decides the outcome, with forward checked before
reverse for that same user term.  Forward substitution does not take
global precedence over reverse substitution across different user
terms. -/
theorem C1_amended (userClean : List Str) (r : Str) :
    matchTerm userClean r = matchTermSpec userClean r := by
  unfold matchTerm matchTermSpec
  by_cases h : (userClean.any fun u => overlapB r u) = true
  · simp only [h, if_true]
  · simp only [h, if_false]
    exact subScan_eq_find r userClean

/-! ## C5: boost monotonicity -/

/-- C5 counterexample: at `semanticScore = -1` (inside the documented
cosine range `[-1, 1]`) and match ratios `0 ≤ 1`, the boosted score
strictly decreases, refuting monotonicity over the whole cosine
range. -/
theorem C5_counterexample :
    (-1 : ℚ) ≤ -1 ∧ (-1 : ℚ) ≤ 1 ∧ (0 : ℚ) ≤ 0 ∧ (0 : ℚ) ≤ 1 ∧ (1 : ℚ) ≤ 1 ∧
      boostWith (-1) 1 < boostWith (-1) 0 := by
  refine ⟨le_refl _, by norm_num, le_refl _, by norm_num, le_refl _, ?_⟩
  unfold boostWith; norm_num

/-- C5 (amended): for a fixed non-negative semantic score (the claim
fails for negative scores), the boosted score
`semanticScore * (1 + matchRatio)` is non-decreasing in the match
ratio. -/
theorem C5_amended (s r1 r2 : ℚ) (hs0 : 0 ≤ s) (hs1 : s ≤ 1) (h1 : 0 ≤ r1)
    (h12 : r1 ≤ r2) (h2 : r2 ≤ 1) : boostWith s r1 ≤ boostWith s r2 := by
  unfold boostWith
  exact mul_le_mul_of_nonneg_left (add_le_add_left h12 1) hs0

/-- Witness for C5_amended at `s = 0, r1 = 0, r2 = 1`. -/
theorem C5_amended_witness :
    (0 : ℚ) ≤ 0 ∧ (0 : ℚ) ≤ 1 ∧ (0 : ℚ) ≤ 0 ∧ (0 : ℚ) ≤ 1 ∧ (1 : ℚ) ≤ 1 ∧
      boostWith 0 0 ≤ boostWith 0 1 :=
  ⟨le_refl 0, zero_le_one, le_refl 0, zero_le_one, le_refl 1,
    C5_amended 0 0 1 (le_refl 0) zero_le_one (le_refl 0) zero_le_one (le_refl 1)⟩

/-! ## C6: out-of-range topN / maxMissing -/

/-- C6 counterexample: with two surviving records and `topN = -1`, the
Python slice `out[:-1]` drops only the last record, so `recommend`
returns one record instead of the empty result the claim demands for
`topN <= 0`. -/
theorem C6_counterexample :
    (recommend ["rice".toList]
        [⟨"a".toList, ["rice".toList], [], []⟩,
         ⟨"b".toList, ["rice".toList, "rice".toList], [], []⟩]
        [0, 0] (-1) 2).length = 1 := by decide

/-- C6 (amended): `topN = 0` yields an empty result and
`maxMissing < 0` yields an empty result, and the model is total (no
exception); but a negative `topN` slices off the last `|topN|` records
(Python negative slicing) instead of yielding an empty result. -/
theorem C6_amended (ings : List Str) (rows : List Row) (sims : List ℚ)
    (topN maxMissing : ℤ) :
    (topN = 0 → recommend ings rows sims topN maxMissing = []) ∧
    (maxMissing < 0 → recommend ings rows sims topN maxMissing = []) := by
  constructor
  · intro h
    subst h
    simp [recommend, pySlice]
  · intro h
    have hout : recommendOut ings rows sims maxMissing = [] := by
      rw [recommendOut, List.filter_eq_nil_iff]
      intro o _
      simp only [keepRec, Bool.and_eq_true, decide_eq_true_eq, not_and]
      intro _
      omega
    rw [recommend, hout]
    simp [pySlice]

/-- Witness for C6_amended with both hypotheses discharged at concrete
inputs. -/
theorem C6_amended_witness :
    recommend [] [] [] 0 5 = [] ∧ recommend [] [] [] 7 (-1) = [] :=
  ⟨(C6_amended [] [] [] 0 5).1 rfl, (C6_amended [] [] [] 7 (-1)).2 (by decide)⟩

/-! ## C2: ranking order and truncation -/

/-- C2 counterexample: with `topN = -1` the returned list cannot
contain "at most `topN`" records — already the empty return violates
`length ≤ -1`. -/
theorem C2_counterexample :
    ¬ (((recommend [] [] [] (-1) 0).length : ℤ) ≤ -1) := by decide

/-- C2 (amended): for any two returned records, the earlier one has a
strictly larger `match_count`, or equal `match_count` and a boosted
`score` at least as large; and the returned list has at most `topN`
records whenever `topN ≥ 0` (for negative `topN`, Python's slice
`out[:topN]` instead drops the last `|topN|` records). -/
theorem C2_amended (ings : List Str) (rows : List Row) (sims : List ℚ)
    (topN maxMissing : ℤ) :
    (∀ (i j : ℕ) (hi : i < (recommend ings rows sims topN maxMissing).length)
      (hj : j < (recommend ings rows sims topN maxMissing).length), i < j →
      ((recommend ings rows sims topN maxMissing).get ⟨j, hj⟩).match_count <
          ((recommend ings rows sims topN maxMissing).get ⟨i, hi⟩).match_count ∨
        (((recommend ings rows sims topN maxMissing).get ⟨i, hi⟩).match_count =
            ((recommend ings rows sims topN maxMissing).get ⟨j, hj⟩).match_count ∧
          ((recommend ings rows sims topN maxMissing).get ⟨j, hj⟩).score ≤
            ((recommend ings rows sims topN maxMissing).get ⟨i, hi⟩).score)) ∧
    (0 ≤ topN → ((recommend ings rows sims topN maxMissing).length : ℤ) ≤ topN) := by
  constructor
  · have hsorted :
        (List.insertionSort rankRel (recommendOut ings rows sims maxMissing)).Pairwise
          rankRel :=
      List.sorted_insertionSort rankRel _
    have hsl : (recommend ings rows sims topN maxMissing).Pairwise rankRel := by
      rw [recommend]
      unfold pySlice
      split
      · exact List.Pairwise.sublist (List.take_sublist _ _) hsorted
      · exact List.Pairwise.sublist (List.take_sublist _ _) hsorted
    rw [List.pairwise_iff_getElem] at hsl
    intro i j hi hj hij
    have h := hsl i j hi hj hij
    unfold rankRel at h
    rcases h with h | ⟨heq, hle⟩
    · exact Or.inl h
    · exact Or.inr ⟨heq.symm, hle⟩
  · intro h
    rw [recommend]
    unfold pySlice
    rw [if_pos h]
    simp only [List.length_take]
    omega

/-- Witness for C2_amended on a concrete two-record run. -/
theorem C2_amended_witness :
    (((recommend ["rice".toList]
          [⟨"a".toList, ["rice".toList], [], []⟩,
           ⟨"b".toList, ["rice".toList, "rice".toList], [], []⟩]
          [0, 0] 8 2).get ⟨1, by decide⟩).match_count <
        ((recommend ["rice".toList]
          [⟨"a".toList, ["rice".toList], [], []⟩,
           ⟨"b".toList, ["rice".toList, "rice".toList], [], []⟩]
          [0, 0] 8 2).get ⟨0, by decide⟩).match_count ∨
      (((recommend ["rice".toList]
          [⟨"a".toList, ["rice".toList], [], []⟩,
           ⟨"b".toList, ["rice".toList, "rice".toList], [], []⟩]
          [0, 0] 8 2).get ⟨0, by decide⟩).match_count =
          ((recommend ["rice".toList]
            [⟨"a".toList, ["rice".toList], [], []⟩,
             ⟨"b".toList, ["rice".toList, "rice".toList], [], []⟩]
            [0, 0] 8 2).get ⟨1, by decide⟩).match_count ∧
        ((recommend ["rice".toList]
          [⟨"a".toList, ["rice".toList], [], []⟩,
           ⟨"b".toList, ["rice".toList, "rice".toList], [], []⟩]
          [0, 0] 8 2).get ⟨1, by decide⟩).score ≤
          ((recommend ["rice".toList]
            [⟨"a".toList, ["rice".toList], [], []⟩,
             ⟨"b".toList, ["rice".toList, "rice".toList], [], []⟩]
            [0, 0] 8 2).get ⟨0, by decide⟩).score)) ∧
    ((recommend ["rice".toList]
        [⟨"a".toList, ["rice".toList], [], []⟩,
         ⟨"b".toList, ["rice".toList, "rice".toList], [], []⟩]
        [0, 0] 8 2).length : ℤ) ≤ 8 :=
  ⟨(C2_amended ["rice".toList]
      [⟨"a".toList, ["rice".toList], [], []⟩,
       ⟨"b".toList, ["rice".toList, "rice".toList], [], []⟩]
      [0, 0] 8 2).1 0 1 (by decide) (by decide) (by decide),
   (C2_amended ["rice".toList]
      [⟨"a".toList, ["rice".toList], [], []⟩,
       ⟨"b".toList, ["rice".toList, "rice".toList], [], []⟩]
      [0, 0] 8 2).2 (by decide)⟩

/-! ## C3: inclusion filter -/

/-- C3: a corpus record is in the (pre-truncation) output list iff it
passes the inclusion filter: (some present ingredient, or a raw
semantic score above 0.5) and no more than `maxMissing` missing
ingredients; consequently every record returned by `recommend`
satisfies the missing-count bound. -/
theorem C3_inclusion_filter (ings : List Str) (rows : List Row) (sims : List ℚ)
    (maxMissing topN : ℤ) :
    (∀ (i : ℕ) (hi : i < (rows.zip sims).length),
      mkOut (ings.map clean_ing) ((rows.zip sims).get ⟨i, hi⟩).1
          ((rows.zip sims).get ⟨i, hi⟩).2 ∈ recommendOut ings rows sims maxMissing ↔
        ((0 < (mkOut (ings.map clean_ing) ((rows.zip sims).get ⟨i, hi⟩).1
              ((rows.zip sims).get ⟨i, hi⟩).2).present.length ∨
            (1 : ℚ)/2 < ((rows.zip sims).get ⟨i, hi⟩).2) ∧
          ((mkOut (ings.map clean_ing) ((rows.zip sims).get ⟨i, hi⟩).1
              ((rows.zip sims).get ⟨i, hi⟩).2).missing.length : ℤ) ≤ maxMissing)) ∧
    (∀ o ∈ recommend ings rows sims topN maxMissing,
      (o.missing.length : ℤ) ≤ maxMissing) := by
  constructor
  · intro i hi
    have hmem :
        mkOut (ings.map clean_ing) ((rows.zip sims).get ⟨i, hi⟩).1
            ((rows.zip sims).get ⟨i, hi⟩).2 ∈
          (rows.zip sims).map fun p => mkOut (ings.map clean_ing) p.1 p.2 :=
      List.mem_map_of_mem _ (List.get_mem _ _ _)
    rw [recommendOut, List.mem_filter]
    simp only [hmem, true_and, keepRec, Bool.and_eq_true, Bool.or_eq_true,
      decide_eq_true_eq]
    exact Iff.rfl
  · intro o ho
    rw [recommend] at ho
    unfold pySlice at ho
    have ho2 : o ∈ List.insertionSort rankRel (recommendOut ings rows sims maxMissing) := by
      split at ho
      · exact List.Sublist.mem ho (List.take_sublist _ _)
      · exact List.Sublist.mem ho (List.take_sublist _ _)
    have ho3 : o ∈ recommendOut ings rows sims maxMissing :=
      ((List.perm_insertionSort rankRel _).mem_iff).1 ho2
    rw [recommendOut, List.mem_filter] at ho3
    have hk := ho3.2
    simp only [keepRec, Bool.and_eq_true, Bool.or_eq_true, decide_eq_true_eq] at hk
    exact hk.2

/-- Witness for C3_inclusion_filter on a concrete one-record run: the
filter iff at index 0 and the missing-count bound on the record
actually returned by `recommend`. -/
theorem C3_inclusion_filter_witness :
    (mkOut (["rice".toList].map clean_ing) ⟨"a".toList, ["rice".toList], [], []⟩ 1 ∈
        recommendOut ["rice".toList] [⟨"a".toList, ["rice".toList], [], []⟩] [1] 2 ↔
      ((0 < (mkOut (["rice".toList].map clean_ing)
            ⟨"a".toList, ["rice".toList], [], []⟩ 1).present.length ∨
          (1 : ℚ)/2 < 1) ∧
        ((mkOut (["rice".toList].map clean_ing)
            ⟨"a".toList, ["rice".toList], [], []⟩ 1).missing.length : ℤ) ≤ 2)) ∧
    ((mkOut (["rice".toList].map clean_ing)
        ⟨"a".toList, ["rice".toList], [], []⟩ 1).missing.length : ℤ) ≤ 2 :=
  ⟨(C3_inclusion_filter ["rice".toList] [⟨"a".toList, ["rice".toList], [], []⟩]
      [1] 2 8).1 0 (by decide),
   (C3_inclusion_filter ["rice".toList] [⟨"a".toList, ["rice".toList], [], []⟩]
      [1] 2 8).2
    (mkOut (["rice".toList].map clean_ing) ⟨"a".toList, ["rice".toList], [], []⟩ 1)
    (List.mem_cons_self _ _)⟩

/-! ## C8: nutrition estimator -/

/-- Auxiliary: the inner `for k, v in NUT.items()` accumulation equals
the sum over the matching table entries. -/
theorem nutFold_eq (ii : Str) (acc : ℕ) (tbl : List (Str × ℕ)) :
    tbl.foldl (fun a kv => if occursIn kv.1 ii then a + kv.2 else a) acc =
      acc + ((tbl.filter fun kv => occursIn kv.1 ii).map Prod.snd).sum := by
  induction tbl generalizing acc with
  | nil => simp
  | cons kv rest ih =>
    by_cases h : occursIn kv.1 ii = true
    · simp [List.foldl, h, ih, List.filter]
      omega
    · simp [List.foldl, h, ih, List.filter]

/-- C8: the nutrition estimator is a pure function returning, for each
ingredient, the sum of the calorie values of every table key occurring
as a substring of the cleaned ingredient (all matching keys contribute
additively); on `["2 cups rice", "1 onion"]` it sums the `rice` (130)
and `onion` (40) entries exactly once each. -/
theorem C8_nutrition :
    (∀ lst : List Str,
      nutrition lst =
        (lst.map fun i =>
          ((NUT.filter fun kv => occursIn kv.1 (clean_ing i)).map Prod.snd).sum).sum) ∧
    nutrition ["2 cups rice".toList, "1 onion".toList] = 130 + 40 := by
  constructor
  · intro lst
    have h1 : ∀ (l : List Str) (acc : ℕ),
        l.foldl
            (fun cals i =>
              NUT.foldl
                (fun a kv => if occursIn kv.1 (clean_ing i) then a + kv.2 else a) cals)
            acc =
          acc + (l.map fun i =>
            ((NUT.filter fun kv => occursIn kv.1 (clean_ing i)).map Prod.snd).sum).sum := by
      intro l
      induction l with
      | nil => intro acc; simp
      | cons i rest ih =>
        intro acc
        rw [List.foldl, nutFold_eq, ih]
        simp
        omega
    have h2 := h1 lst 0
    rw [nutrition, h2, Nat.zero_add]
  · decide

/-! ## C9: corpus loader's ingredient parser -/

/-- C9 counterexample: the `ingredients` cell `"42"` is malformed
(parses to a non-sequence literal); `parse_ing` reaches the trailing
`return list(val)` outside the `try`, which raises `TypeError`
uncaught (failing the whole load) instead of degrading to an empty
sequence. -/
theorem C9_counterexample :
    parse_ing (.pystr "42".toList) = .typeError ∧
      ParseResult.typeError ≠ .ok [] := by
  exact ⟨by decide, by decide⟩

/-- C9 (amended): list cells are returned unchanged and NaN yields
`[]`; a string cell that `ast.literal_eval` cannot parse degrades to
comma-separated parsing (stripped non-empty pieces — not an empty
sequence); but a string cell parsing to a non-sequence literal (e.g.
`"42"`) raises `TypeError`, failing the whole load. -/
theorem C9_amended :
    (∀ l, parse_ing (.pylist l) = .ok l) ∧
    parse_ing .nan = .ok [] ∧
    parse_ing (.pystr "salt, pepper".toList) =
      .ok ["salt".toList, "pepper".toList] ∧
    parse_ing (.pystr "42".toList) = .typeError :=
  ⟨fun _ => rfl, rfl, by decide, by decide⟩

/-! ## C10: empty normalized user term -/

/-- The empty string occurs in every string, so an empty user term
direct-overlaps every recipe term. -/
theorem overlapB_nil (r : Str) : overlapB r [] = true := by
  cases r <;> simp [overlapB, occursIn, isPrefixB]

/-- C10: if some user ingredient normalizes to the empty string (e.g.
`"2 cups"`), every recipe term is present via direct overlap: `present`
is the full cleaned sequence, `missing` is empty, and the match count
equals the recipe's full cleaned ingredient count. -/
theorem C10_empty_user_term (ings : List Str) (raw : List Str)
    (h : ∃ u ∈ ings, clean_ing u = []) :
    matchLists (ings.map clean_ing) (clean_list raw) = (clean_list raw, [], []) ∧
      (matchLists (ings.map clean_ing) (clean_list raw)).1.length =
        (clean_list raw).length := by
  obtain ⟨u, hu, hcu⟩ := h
  have hterm : ∀ r : Str, matchTerm (ings.map clean_ing) r = .found r none := by
    intro r
    have hany : (ings.map clean_ing).any (fun u' => overlapB r u') = true := by
      rw [List.any_eq_true]
      exact ⟨[], by simpa [hcu] using List.mem_map_of_mem clean_ing hu, overlapB_nil r⟩
    simp [matchTerm, hany]
  have hmain : ∀ L : List Str,
      matchLists (ings.map clean_ing) L = (L, [], []) := by
    intro L
    induction L with
    | nil => rfl
    | cons r rest ih => simp [matchLists, ih, hterm r]
  exact ⟨hmain _, by rw [hmain]⟩

/-! ## Character-class and scanner lemmas (infrastructure for C4/C7) -/

/-- ASCII lowering is idempotent. -/
theorem toLower_toLower (c : Char) : c.toLower.toLower = c.toLower := by
  by_cases h : 65 ≤ c.toNat ∧ c.toNat ≤ 90
  · have h1 : c.toLower = Char.ofNat (c.toNat + 32) := by
      unfold Char.toLower
      rw [if_pos ⟨h.1, h.2⟩]
    have hv : (c.toNat + 32).isValidChar := Or.inl (by omega)
    have ht : (Char.ofNat (c.toNat + 32)).toNat = c.toNat + 32 := by
      unfold Char.ofNat
      rw [dif_pos hv]
      rfl
    rw [h1]
    unfold Char.toLower
    rw [if_neg]
    rw [ht]
    omega
  · have h1 : c.toLower = c := by
      unfold Char.toLower
      rw [if_neg h]
    rw [h1, h1]

/-- A word character is not whitespace. -/
theorem word_not_space {c : Char} (h : isWordC c = true) : isSpaceC c = false := by
  by_contra hs
  rw [Bool.not_eq_false] at hs
  simp only [isSpaceC, Bool.or_eq_true, beq_iff_eq] at hs
  rcases hs with ((((h1 | h1) | h1) | h1) | h1) | h1 <;> subst h1 <;>
    exact absurd h (by decide)

theorem mem_lowerStr {s : Str} {c : Char} (hc : c ∈ lowerStr s) : c.toLower = c := by
  rw [lowerStr, List.mem_map] at hc
  obtain ⟨c0, _, rfl⟩ := hc
  exact toLower_toLower c0

/-- Step equations for the scanners (all definitional). -/
theorem rpAux_none_cons (a : Char) (rest : List Char) :
    rpAux none (a :: rest) =
      if a = '(' then rpAux (some []) rest else a :: rpAux none rest := rfl

theorem rpAux_some_cons (buf : List Char) (a : Char) (rest : List Char) :
    rpAux (some buf) (a :: rest) =
      if a = ')' then ' ' :: rpAux none rest else rpAux (some (a :: buf)) rest := rfl

theorem ruAux_cons (buf : List Char) (c : Char) (rest : List Char) :
    ruAux buf (c :: rest) =
      if isWordC c then ruAux (c :: buf) rest
      else flushWord buf (c :: ruAux [] rest) := rfl

theorem cwAux_cons (b : Bool) (c : Char) (rest : List Char) :
    cwAux b (c :: rest) =
      if isSpaceC c then
        if b then cwAux true rest else ' ' :: cwAux true rest
      else c :: cwAux false rest := rfl

/-- Characters of the paren-scanner's output satisfy any predicate
holding on the input characters, `' '` and `'('`. -/
theorem rp_chars (P : Char → Prop) (hsp : P ' ') (hpar : P '(') :
    ∀ (l : List Char) (st : Option (List Char)),
      (∀ c ∈ l, P c) → (∀ buf, st = some buf → ∀ c ∈ buf, P c) →
      ∀ c ∈ rpAux st l, P c := by
  intro l
  induction l with
  | nil =>
    intro st hl hst c hc
    cases st with
    | none => simp [rpAux] at hc
    | some buf =>
      simp only [rpAux] at hc
      rcases List.mem_cons.1 hc with rfl | hc2
      · exact hpar
      · exact hst buf rfl c (List.mem_reverse.1 hc2)
  | cons a rest ih =>
    intro st hl hst c hc
    have hla : ∀ c ∈ rest, P c := fun x hx => hl x (List.mem_cons_of_mem a hx)
    have hPa : P a := hl a (List.mem_cons_self a rest)
    cases st with
    | none =>
      rw [rpAux_none_cons] at hc
      by_cases ha : a = '('
      · rw [if_pos ha] at hc
        refine ih (some []) hla ?_ c hc
        intro buf hb x hx
        injection hb with h2
        subst h2
        cases hx
      · rw [if_neg ha] at hc
        rcases List.mem_cons.1 hc with rfl | hc2
        · exact hPa
        · exact ih none hla (by rintro buf h; cases h) c hc2
    | some buf =>
      have hbuf : ∀ c ∈ buf, P c := hst buf rfl
      rw [rpAux_some_cons] at hc
      by_cases ha : a = ')'
      · rw [if_pos ha] at hc
        rcases List.mem_cons.1 hc with rfl | hc2
        · exact hsp
        · exact ih none hla (by rintro b h; cases h) c hc2
      · rw [if_neg ha] at hc
        refine ih (some (a :: buf)) hla ?_ c hc
        intro b hb x hx
        injection hb with h2
        subst h2
        rcases List.mem_cons.1 hx with rfl | hx2
        · exact hPa
        · exact hbuf x hx2

theorem flush_chars (P : Char → Prop) (buf t : List Char) (hsp : P ' ')
    (hbuf : ∀ c ∈ buf, P c) (ht : ∀ c ∈ t, P c) : ∀ c ∈ flushWord buf t, P c := by
  intro c hc
  cases buf with
  | nil => exact ht c hc
  | cons b bs =>
    simp only [flushWord] at hc
    rcases List.mem_append.1 hc with hc1 | hc2
    · by_cases hu : unitsList.contains ((b :: bs).reverse) = true
      · rw [if_pos hu] at hc1
        rcases List.mem_cons.1 hc1 with rfl | h
        · exact hsp
        · cases h
      · rw [if_neg hu] at hc1
        exact hbuf c (List.mem_reverse.1 hc1)
    · exact ht c hc2

/-- Characters of the unit-scanner's output satisfy any predicate
holding on the input, the buffer and `' '`. -/
theorem ru_chars (P : Char → Prop) (hsp : P ' ') :
    ∀ (l : List Char) (buf : List Char),
      (∀ c ∈ l, P c) → (∀ c ∈ buf, P c) → ∀ c ∈ ruAux buf l, P c := by
  intro l
  induction l with
  | nil =>
    intro buf hl hbuf c hc
    exact flush_chars P buf [] hsp hbuf (by intro x hx; cases hx) c hc
  | cons a rest ih =>
    intro buf hl hbuf c hc
    have hla : ∀ c ∈ rest, P c := fun x hx => hl x (List.mem_cons_of_mem a hx)
    have hPa : P a := hl a (List.mem_cons_self a rest)
    rw [ruAux_cons] at hc
    by_cases hw : isWordC a = true
    · rw [if_pos hw] at hc
      refine ih (a :: buf) hla ?_ c hc
      intro x hx
      rcases List.mem_cons.1 hx with rfl | hx2
      · exact hPa
      · exact hbuf x hx2
    · rw [if_neg hw] at hc
      refine flush_chars P buf _ hsp hbuf ?_ c hc
      intro x hx
      rcases List.mem_cons.1 hx with rfl | hx2
      · exact hPa
      · exact ih [] hla (by intro y hy; cases hy) x hx2

/-- Characters of the quantity-scanner's output satisfy any predicate
holding on the input, `' '` and `'/'`. -/
theorem rq_chars (P : Char → Prop) (hsp : P ' ') (hsl : P '/') :
    ∀ (l : List Char) (st : RQState), (∀ c ∈ l, P c) → ∀ c ∈ rqGo st l, P c := by
  intro l
  induction l with
  | nil =>
    intro st hl c hc
    cases st with
    | norm => cases hc
    | dig =>
      rcases List.mem_cons.1 hc with rfl | h
      · exact hsp
      · cases h
    | slash =>
      rcases List.mem_cons.1 hc with rfl | h
      · exact hsp
      · rcases List.mem_cons.1 h with rfl | h2
        · exact hsl
        · cases h2
    | dig2 =>
      rcases List.mem_cons.1 hc with rfl | h
      · exact hsp
      · cases h
  | cons a rest ih =>
    intro st hl c hc
    have hla : ∀ c ∈ rest, P c := fun x hx => hl x (List.mem_cons_of_mem a hx)
    have hPa : P a := hl a (List.mem_cons_self a rest)
    cases st with
    | norm =>
      simp only [rqGo] at hc
      by_cases hd : a.isDigit = true
      · rw [if_pos hd] at hc
        exact ih .dig hla c hc
      · rw [if_neg hd] at hc
        rcases List.mem_cons.1 hc with rfl | hc2
        · exact hPa
        · exact ih .norm hla c hc2
    | dig =>
      simp only [rqGo] at hc
      by_cases hd : a.isDigit = true
      · rw [if_pos hd] at hc
        exact ih .dig hla c hc
      · rw [if_neg hd] at hc
        by_cases ha : a = '/'
        · rw [if_pos ha] at hc
          exact ih .slash hla c hc
        · rw [if_neg ha] at hc
          rcases List.mem_cons.1 hc with rfl | hc2
          · exact hsp
          · rcases List.mem_cons.1 hc2 with rfl | hc3
            · exact hPa
            · exact ih .norm hla c hc3
    | slash =>
      simp only [rqGo] at hc
      by_cases hd : a.isDigit = true
      · rw [if_pos hd] at hc
        exact ih .dig2 hla c hc
      · rw [if_neg hd] at hc
        rcases List.mem_cons.1 hc with rfl | hc2
        · exact hsp
        · rcases List.mem_cons.1 hc2 with rfl | hc3
          · exact hsl
          · rcases List.mem_cons.1 hc3 with rfl | hc4
            · exact hPa
            · exact ih .norm hla c hc4
    | dig2 =>
      simp only [rqGo] at hc
      by_cases hd : a.isDigit = true
      · rw [if_pos hd] at hc
        exact ih .dig2 hla c hc
      · rw [if_neg hd] at hc
        rcases List.mem_cons.1 hc with rfl | hc2
        · exact hsp
        · rcases List.mem_cons.1 hc2 with rfl | hc3
          · exact hPa
          · exact ih .norm hla c hc3

/-- The quantity scanner's output contains no digits. -/
theorem rq_nodigit :
    ∀ (l : List Char) (st : RQState), ∀ c ∈ rqGo st l, c.isDigit = false := by
  intro l
  induction l with
  | nil =>
    intro st c hc
    cases st with
    | norm => cases hc
    | dig =>
      rcases List.mem_cons.1 hc with rfl | h
      · rfl
      · cases h
    | slash =>
      rcases List.mem_cons.1 hc with rfl | h
      · rfl
      · rcases List.mem_cons.1 h with rfl | h2
        · rfl
        · cases h2
    | dig2 =>
      rcases List.mem_cons.1 hc with rfl | h
      · rfl
      · cases h
  | cons a rest ih =>
    intro st c hc
    cases st with
    | norm =>
      simp only [rqGo] at hc
      by_cases hd : a.isDigit = true
      · rw [if_pos hd] at hc
        exact ih .dig c hc
      · rw [if_neg hd] at hc
        rcases List.mem_cons.1 hc with rfl | hc2
        · exact Bool.eq_false_iff.mpr hd
        · exact ih .norm c hc2
    | dig =>
      simp only [rqGo] at hc
      by_cases hd : a.isDigit = true
      · rw [if_pos hd] at hc
        exact ih .dig c hc
      · rw [if_neg hd] at hc
        by_cases ha : a = '/'
        · rw [if_pos ha] at hc
          exact ih .slash c hc
        · rw [if_neg ha] at hc
          rcases List.mem_cons.1 hc with rfl | hc2
          · rfl
          · rcases List.mem_cons.1 hc2 with rfl | hc3
            · exact Bool.eq_false_iff.mpr hd
            · exact ih .norm c hc3
    | slash =>
      simp only [rqGo] at hc
      by_cases hd : a.isDigit = true
      · rw [if_pos hd] at hc
        exact ih .dig2 c hc
      · rw [if_neg hd] at hc
        rcases List.mem_cons.1 hc with rfl | hc2
        · rfl
        · rcases List.mem_cons.1 hc2 with rfl | hc3
          · rfl
          · rcases List.mem_cons.1 hc3 with rfl | hc4
            · exact Bool.eq_false_iff.mpr hd
            · exact ih .norm c hc4
    | dig2 =>
      simp only [rqGo] at hc
      by_cases hd : a.isDigit = true
      · rw [if_pos hd] at hc
        exact ih .dig2 c hc
      · rw [if_neg hd] at hc
        rcases List.mem_cons.1 hc with rfl | hc2
        · rfl
        · rcases List.mem_cons.1 hc2 with rfl | hc3
          · exact Bool.eq_false_iff.mpr hd
          · exact ih .norm c hc3

/-- Characters of the punctuation pass are word characters or
whitespace. -/
theorem punct_wordspace {l : Str} :
    ∀ c ∈ removePunct l, isWordC c = true ∨ isSpaceC c = true := by
  intro c hc
  rw [removePunct, List.mem_map] at hc
  obtain ⟨c0, _, rfl⟩ := hc
  by_cases h : (isWordC c0 || isSpaceC c0) = true
  · rw [if_pos h]
    simpa using h
  · rw [if_neg h]
    right
    rfl

/-- Characters of the punctuation pass satisfy any predicate holding
on the input and `' '`. -/
theorem punct_chars (P : Char → Prop) (hsp : P ' ') {l : Str}
    (hl : ∀ c ∈ l, P c) : ∀ c ∈ removePunct l, P c := by
  intro c hc
  rw [removePunct, List.mem_map] at hc
  obtain ⟨c0, hc0, rfl⟩ := hc
  by_cases h : (isWordC c0 || isSpaceC c0) = true
  · rw [if_pos h]
    exact hl c0 hc0
  · rw [if_neg h]
    exact hsp

/-- Characters of the whitespace collapse satisfy any predicate
holding on the input and `' '`. -/
theorem cw_chars (P : Char → Prop) (hsp : P ' ') :
    ∀ (l : List Char) (b : Bool), (∀ c ∈ l, P c) → ∀ c ∈ cwAux b l, P c := by
  intro l
  induction l with
  | nil => intro b _ c hc; cases hc
  | cons a rest ih =>
    intro b hl c hc
    have hla : ∀ c ∈ rest, P c := fun x hx => hl x (List.mem_cons_of_mem a hx)
    have hPa : P a := hl a (List.mem_cons_self a rest)
    rw [cwAux_cons] at hc
    by_cases hs : isSpaceC a = true
    · rw [if_pos hs] at hc
      cases b with
      | true => exact ih true hla c hc
      | false =>
        rcases List.mem_cons.1 hc with rfl | hc2
        · exact hsp
        · exact ih true hla c hc2
    · rw [if_neg hs] at hc
      rcases List.mem_cons.1 hc with rfl | hc2
      · exact hPa
      · exact ih false hla c hc2

/-- A collapse-output character is the emitted `' '` or a non-space
input character. -/
theorem cw_mem :
    ∀ (l : List Char) (b : Bool), ∀ c ∈ cwAux b l,
      c = ' ' ∨ (c ∈ l ∧ isSpaceC c = false) := by
  intro l
  induction l with
  | nil => intro b c hc; cases hc
  | cons a rest ih =>
    intro b c hc
    rw [cwAux_cons] at hc
    by_cases hs : isSpaceC a = true
    · rw [if_pos hs] at hc
      have step : c ∈ cwAux true rest → c = ' ' ∨ (c ∈ a :: rest ∧ isSpaceC c = false) := by
        intro h
        rcases ih true c h with h1 | ⟨h1, h2⟩
        · exact Or.inl h1
        · exact Or.inr ⟨List.mem_cons_of_mem a h1, h2⟩
      cases b with
      | true => exact step hc
      | false =>
        rcases List.mem_cons.1 hc with rfl | hc2
        · exact Or.inl rfl
        · exact step hc2
    · rw [if_neg hs] at hc
      rcases List.mem_cons.1 hc with rfl | hc2
      · exact Or.inr ⟨List.mem_cons_self _ _, Bool.eq_false_iff.mpr hs⟩
      · rcases ih false c hc2 with h1 | ⟨h1, h2⟩
        · exact Or.inl h1
        · exact Or.inr ⟨List.mem_cons_of_mem a h1, h2⟩

/-- Characters of `pyStrip` come from the input. -/
theorem pyStrip_chars {l : Str} : ∀ c ∈ pyStrip l, c ∈ l := by
  intro c hc
  rw [pyStrip, dropTrailing] at hc
  have h1 := List.mem_reverse.1 hc
  have h2 := (List.dropWhile_sublist _).mem h1
  have h3 := List.mem_reverse.1 h2
  exact (List.dropWhile_sublist _).mem h3

/-- The input of the collapse pass of `clean_ing` contains no
digits. -/
theorem punct_out_nodigit (s : Str) :
    ∀ x ∈ removePunct (removeQuantity (removeUnits (removeParens (lowerStr s)))),
      x.isDigit = false := by
  intro x hx
  rw [removePunct, List.mem_map] at hx
  obtain ⟨x0, hx0, rfl⟩ := hx
  have h0 : x0.isDigit = false := rq_nodigit _ .norm x0 hx0
  by_cases h : (isWordC x0 || isSpaceC x0) = true
  · rw [if_pos h]; exact h0
  · rw [if_neg h]; rfl

/-- The input of the collapse pass of `clean_ing` is lowercase
fixed. -/
theorem punct_out_lower (s : Str) :
    ∀ x ∈ removePunct (removeQuantity (removeUnits (removeParens (lowerStr s)))),
      x.toLower = x := by
  refine punct_chars _ (by decide) ?_
  refine rq_chars _ (by decide) (by decide) _ .norm ?_
  refine ru_chars _ (by decide) _ [] ?_ (by intro y hy; cases hy)
  refine rp_chars _ (by decide) (by decide) _ none ?_ (by rintro b h; cases h)
  intro y hy
  exact mem_lowerStr hy

/-- Every character of a cleaned string is a lowercase-fixed,
digit-free word character, or a space. -/
theorem clean_chars (s : Str) :
    ∀ c ∈ clean_ing s,
      (isWordC c = true ∧ c.isDigit = false ∧ c.toLower = c) ∨ c = ' ' := by
  intro c hc
  rw [clean_ing] at hc
  have hc1 := pyStrip_chars c hc
  rcases cw_mem _ false c hc1 with rfl | ⟨hcin, hns⟩
  · exact Or.inr rfl
  · left
    rcases punct_wordspace c hcin with hw | hs
    · exact ⟨hw, punct_out_nodigit s c hcin, punct_out_lower s c hcin⟩
    · rw [hns] at hs
      exact absurd hs (by simp)

/-- Cleaned strings never contain `(`. -/
theorem clean_no_paren (s : Str) : ∀ c ∈ clean_ing s, c ≠ '(' := by
  intro c hc heq
  subst heq
  rcases clean_chars s '(' hc with ⟨hw, _, _⟩ | hsp
  · exact absurd hw (by decide)
  · exact absurd hsp (by decide)

/-! ## Canonical-form lemmas: each pass is the identity (or the unit
hole map) on a space-joined list of good words -/

theorem map_id_of {f : Char → Char} :
    ∀ l : Str, (∀ c ∈ l, f c = c) → l.map f = l := by
  intro l h
  induction l with
  | nil => rfl
  | cons a rest ih =>
    rw [List.map_cons, h a (List.mem_cons_self a rest),
      ih fun c hc => h c (List.mem_cons_of_mem a hc)]

theorem joinTail_cons (w : Str) (ws : List Str) :
    joinTail (w :: ws) = ' ' :: (w ++ joinTail ws) := rfl

theorem joinW_cons (w : Str) (ws : List Str) : joinW (w :: ws) = w ++ joinTail ws := rfl

theorem joinTail_chars (P : Char → Prop) (hsp : P ' ') :
    ∀ ws : List Str, (∀ w ∈ ws, ∀ c ∈ w, P c) → ∀ c ∈ joinTail ws, P c := by
  intro ws
  induction ws with
  | nil => intro _ c hc; cases hc
  | cons w rest ih =>
    intro h c hc
    rw [joinTail_cons] at hc
    rcases List.mem_cons.1 hc with rfl | hc2
    · exact hsp
    · rcases List.mem_append.1 hc2 with h1 | h1
      · exact h w (List.mem_cons_self w rest) c h1
      · exact ih (fun v hv => h v (List.mem_cons_of_mem w hv)) c h1

theorem joinW_chars (P : Char → Prop) (hsp : P ' ') :
    ∀ ws : List Str, (∀ w ∈ ws, ∀ c ∈ w, P c) → ∀ c ∈ joinW ws, P c := by
  intro ws h c hc
  cases ws with
  | nil => cases hc
  | cons w rest =>
    rw [joinW_cons] at hc
    rcases List.mem_append.1 hc with h1 | h1
    · exact h w (List.mem_cons_self w rest) c h1
    · exact joinTail_chars P hsp rest (fun v hv => h v (List.mem_cons_of_mem w hv)) c h1

/-- The paren pass is the identity on `(`-free strings. -/
theorem rp_id : ∀ l : Str, (∀ c ∈ l, c ≠ '(') → rpAux none l = l := by
  intro l
  induction l with
  | nil => intro _; rfl
  | cons a rest ih =>
    intro h
    rw [rpAux_none_cons, if_neg (h a (List.mem_cons_self a rest)),
      ih fun c hc => h c (List.mem_cons_of_mem a hc)]

/-- Scanning a word-character run pushes it onto the buffer. -/
theorem ruAux_word_append :
    ∀ (w : Str) (buf t : List Char), (∀ c ∈ w, isWordC c = true) →
      ruAux buf (w ++ t) = ruAux (w.reverse ++ buf) t := by
  intro w
  induction w with
  | nil => intro buf t _; rfl
  | cons c w' ih =>
    intro buf t h
    have : (c :: w') ++ t = c :: (w' ++ t) := rfl
    rw [this, ruAux_cons, if_pos (h c (List.mem_cons_self c w')),
      ih (c :: buf) t fun x hx => h x (List.mem_cons_of_mem c hx)]
    congr 1
    rw [List.reverse_cons, List.append_assoc]
    rfl

/-- The unit pass on a canonical join replaces exactly the unit words
by holes. -/
theorem ru_joinW : ∀ ws : List Str, GoodWords ws →
    ruAux [] (joinW ws) = joinW (ws.map unitHole) := by
  intro ws
  induction ws with
  | nil => intro _; rfl
  | cons w rest ih =>
    intro hg
    have hw : GoodWord w := hg w (List.mem_cons_self w rest)
    have hrest : GoodWords rest := fun v hv => hg v (List.mem_cons_of_mem w hv)
    have hwchars : ∀ c ∈ w, isWordC c = true := fun c hc => (hw.2 c hc).1
    obtain ⟨b, bs, hrev⟩ : ∃ b bs, w.reverse = b :: bs := by
      cases hb : w.reverse with
      | nil => exact absurd (List.reverse_eq_nil_iff.1 hb) hw.1
      | cons b bs => exact ⟨b, bs, rfl⟩
    have hrevrev : (b :: bs).reverse = w := by rw [← hrev, List.reverse_reverse]
    rw [joinW_cons, ruAux_word_append w [] _ hwchars, List.append_nil]
    cases rest with
    | nil =>
      show ruAux w.reverse [] = joinW [unitHole w]
      rw [hrev]
      show flushWord (b :: bs) [] = joinW [unitHole w]
      rw [flushWord, hrevrev]
      simp [joinW_cons, joinTail, unitHole]
    | cons v rest' =>
      show ruAux w.reverse (' ' :: joinW (v :: rest')) = _
      rw [hrev, ruAux_cons, if_neg (by decide)]
      show flushWord (b :: bs) (' ' :: ruAux [] (joinW (v :: rest'))) = _
      rw [flushWord, hrevrev, ih hrest]
      show (if unitsList.contains w then [' '] else w) ++
          (' ' :: joinW ((v :: rest').map unitHole)) = _
      simp [unitHole, joinW_cons, joinTail_cons, List.map_cons]

/-- The quantity pass is the identity on digit-free strings. -/
theorem rq_id : ∀ l : Str, (∀ c ∈ l, c.isDigit = false) → rqGo .norm l = l := by
  intro l
  induction l with
  | nil => intro _; rfl
  | cons a rest ih =>
    intro h
    show (if a.isDigit then rqGo .dig rest else a :: rqGo .norm rest) = a :: rest
    rw [if_neg (by simp [h a (List.mem_cons_self a rest)]),
      ih fun c hc => h c (List.mem_cons_of_mem a hc)]

/-- The punctuation pass is the identity on word-or-space strings. -/
theorem punct_id : ∀ l : Str, (∀ c ∈ l, (isWordC c || isSpaceC c) = true) →
    removePunct l = l := by
  intro l h
  refine map_id_of l ?_
  intro c hc
  rw [if_pos (h c hc)]

/-! ## Whitespace collapse and strip lemmas -/

theorem cw_true_eq : ∀ l : Str, cwAux true l = cwAux false (l.dropWhile isSpaceC) := by
  intro l
  induction l with
  | nil => rfl
  | cons a rest ih =>
    by_cases hs : isSpaceC a = true
    · rw [cwAux_cons, if_pos hs, if_pos rfl, ih, List.dropWhile_cons, if_pos hs]
    · rw [cwAux_cons, if_neg hs, List.dropWhile_cons, if_neg hs, cwAux_cons, if_neg hs]

theorem cw_nonspace_append :
    ∀ (w t : Str), (∀ c ∈ w, isSpaceC c = false) →
      cwAux false (w ++ t) = w ++ cwAux false t := by
  intro w
  induction w with
  | nil => intro t _; rfl
  | cons a w' ih =>
    intro t h
    have : (a :: w') ++ t = a :: (w' ++ t) := rfl
    rw [this, cwAux_cons, if_neg (by simp [h a (List.mem_cons_self a w')]),
      ih t fun c hc => h c (List.mem_cons_of_mem a hc)]
    rfl

theorem dropWhile_all_neg {p : Char → Bool} :
    ∀ l : Str, (∀ c ∈ l, p c = false) → l.dropWhile p = l := by
  intro l h
  cases l with
  | nil => rfl
  | cons a rest =>
    rw [List.dropWhile_cons, if_neg (by simp [h a (List.mem_cons_self a rest)])]

/-- Dropping trailing whitespace after a leading space. -/
theorem dt_cons_space (X : Str) :
    dropTrailing (' ' :: X) =
      if dropTrailing X = [] then [] else ' ' :: dropTrailing X := by
  unfold dropTrailing
  rw [List.reverse_cons, List.dropWhile_append]
  by_cases h : (X.reverse.dropWhile isSpaceC).isEmpty = true
  · have h2 : X.reverse.dropWhile isSpaceC = [] := List.isEmpty_eq_true.1 h
    rw [if_pos h, h2]
    simp [List.dropWhile]
    rfl
  · have h2 : X.reverse.dropWhile isSpaceC ≠ [] := fun he => h (List.isEmpty_eq_true.2 he)
    rw [if_neg h, List.reverse_append]
    have h3 : (X.reverse.dropWhile isSpaceC).reverse ≠ [] :=
      fun he => h2 (List.reverse_eq_nil_iff.1 he)
    rw [if_neg h3]
    rfl

/-- Dropping trailing whitespace distributes over a whitespace-free
prefix. -/
theorem dt_word_append :
    ∀ (w z : Str), (∀ c ∈ w, isSpaceC c = false) →
      dropTrailing (w ++ z) = w ++ dropTrailing z := by
  intro w z h
  unfold dropTrailing
  rw [List.reverse_append, List.dropWhile_append]
  have hwrev : w.reverse.dropWhile isSpaceC = w.reverse :=
    dropWhile_all_neg w.reverse fun c hc => h c (List.mem_reverse.1 hc)
  by_cases hz : (z.reverse.dropWhile isSpaceC).isEmpty = true
  · have h2 : z.reverse.dropWhile isSpaceC = [] := List.isEmpty_eq_true.1 hz
    rw [if_pos hz, h2, hwrev, List.reverse_reverse]
    simp
  · rw [if_neg hz, List.reverse_append, List.reverse_reverse]

theorem pyStrip_cons_space {c : Char} (hc : isSpaceC c = true) (X : Str) :
    pyStrip (c :: X) = pyStrip X := by
  unfold pyStrip
  rw [List.dropWhile_cons, if_pos hc]

theorem pyStrip_head_nonspace {c : Char} (hc : isSpaceC c = false) (X : Str) :
    pyStrip (c :: X) = dropTrailing (c :: X) := by
  unfold pyStrip
  rw [List.dropWhile_cons, if_neg (by simp [hc])]

theorem pyStrip_word_append (w z : Str) (hne : w ≠ [])
    (h : ∀ c ∈ w, isSpaceC c = false) :
    pyStrip (w ++ z) = w ++ dropTrailing z := by
  cases w with
  | nil => exact absurd rfl hne
  | cons a w' =>
    have : (a :: w') ++ z = a :: (w' ++ z) := rfl
    rw [this, pyStrip_head_nonspace (h a (List.mem_cons_self a w')) _, ← this,
      dt_word_append _ z h]

/-- Prepending a space to a `true`-state collapse of a `joinTail`
(which is empty or starts with a space) changes nothing after trailing
strip. -/
theorem dt_space_cw (L : List Str) :
    dropTrailing (' ' :: cwAux true (joinTail L)) =
      dropTrailing (cwAux false (joinTail L)) := by
  cases L with
  | nil =>
    show dropTrailing [' '] = dropTrailing []
    rfl
  | cons w L' =>
    have h1 : cwAux true (joinTail (w :: L')) = cwAux true (w ++ joinTail L') := by
      rw [joinTail_cons]
      simp [cwAux_cons, show isSpaceC ' ' = true from by decide]
    have h2 : cwAux false (joinTail (w :: L')) =
        ' ' :: cwAux true (w ++ joinTail L') := by
      rw [joinTail_cons]
      simp [cwAux_cons, show isSpaceC ' ' = true from by decide]
    rw [h1, h2]

/-- Starting the collapse in space-mode changes nothing after a full
strip. -/
theorem pyStrip_cw_true (K : Str) :
    pyStrip (cwAux true K) = pyStrip (cwAux false K) := by
  cases K with
  | nil => rfl
  | cons c K' =>
    by_cases hs : isSpaceC c = true
    · have h1 : cwAux true (c :: K') = cwAux true K' := by
        simp [cwAux_cons, hs]
      have h2 : cwAux false (c :: K') = ' ' :: cwAux true K' := by
        simp [cwAux_cons, hs]
      rw [h1, h2, pyStrip_cons_space (show isSpaceC ' ' = true from by decide)]
    · have h1 : cwAux true (c :: K') = c :: cwAux false K' := by
        simp [cwAux_cons, hs]
      have h2 : cwAux false (c :: K') = c :: cwAux false K' := by
        simp [cwAux_cons, hs]
      rw [h1, h2]

/-- Collapse and trailing-strip of a holey join tail: unit holes
disappear. -/
theorem cstTail : ∀ rest : List Str, GoodWords rest →
    dropTrailing (cwAux false (joinTail (rest.map unitHole))) =
      joinTail (rest.filter fun w => !(unitsList.contains w)) := by
  intro rest
  induction rest with
  | nil => intro _; rfl
  | cons v r2 ih =>
    intro hg
    have hv : GoodWord v := hg v (List.mem_cons_self v r2)
    have hr2 : GoodWords r2 := fun u hu => hg u (List.mem_cons_of_mem v hu)
    by_cases hu : unitsList.contains v = true
    · have h1 : unitHole v = [' '] := by rw [unitHole, if_pos hu]
      rw [List.map_cons, h1, joinTail_cons]
      have h2 : cwAux false (' ' :: ([' '] ++ joinTail (r2.map unitHole))) =
          ' ' :: cwAux true (joinTail (r2.map unitHole)) := by
        show cwAux false (' ' :: ' ' :: joinTail (r2.map unitHole)) = _
        simp [cwAux_cons, show isSpaceC ' ' = true from by decide]
      rw [h2, dt_space_cw (r2.map unitHole), ih hr2,
        List.filter_cons_of_neg (by rw [hu]; decide)]
    · have h1 : unitHole v = v := by rw [unitHole, if_neg hu]
      rw [List.map_cons, h1, joinTail_cons]
      have hvchars : ∀ c ∈ v, isSpaceC c = false :=
        fun c hc => word_not_space (hv.2 c hc).1
      obtain ⟨a, v', rfl⟩ : ∃ a v', v = a :: v' := by
        cases v with
        | nil => exact absurd rfl hv.1
        | cons a v' => exact ⟨a, v', rfl⟩
      have h2 : cwAux false (' ' :: ((a :: v') ++ joinTail (r2.map unitHole))) =
          ' ' :: cwAux true ((a :: v') ++ joinTail (r2.map unitHole)) := by
        simp [cwAux_cons, show isSpaceC ' ' = true from by decide]
      have ha : isSpaceC a = false := hvchars a (List.mem_cons_self a v')
      have h3 : cwAux true ((a :: v') ++ joinTail (r2.map unitHole)) =
          (a :: v') ++ cwAux false (joinTail (r2.map unitHole)) := by
        show cwAux true (a :: (v' ++ joinTail (r2.map unitHole))) = _
        rw [cwAux_cons, if_neg (by simp [ha]),
          cw_nonspace_append v' _ fun c hc => hvchars c (List.mem_cons_of_mem a hc)]
        rfl
      rw [h2, h3, dt_cons_space, dt_word_append (a :: v') _ hvchars, ih hr2,
        if_neg (List.append_ne_nil_of_left_ne_nil (List.cons_ne_nil a v') _),
        List.filter_cons_of_pos (by rw [Bool.eq_false_iff.mpr hu]; rfl), joinTail_cons]

/-- Collapse and strip of a holey join: unit holes disappear. -/
theorem csl_joinW_holes : ∀ ws : List Str, GoodWords ws →
    pyStrip (cwAux false (joinW (ws.map unitHole))) =
      joinW (ws.filter fun w => !(unitsList.contains w)) := by
  intro ws
  induction ws with
  | nil => intro _; rfl
  | cons w rest ih =>
    intro hg
    have hw : GoodWord w := hg w (List.mem_cons_self w rest)
    have hrest : GoodWords rest := fun v hv => hg v (List.mem_cons_of_mem w hv)
    by_cases hu : unitsList.contains w = true
    · have h1 : unitHole w = [' '] := by rw [unitHole, if_pos hu]
      rw [List.map_cons, h1, joinW_cons]
      have h2 : cwAux false ([' '] ++ joinTail (rest.map unitHole)) =
          ' ' :: cwAux true (joinTail (rest.map unitHole)) := by
        show cwAux false (' ' :: joinTail (rest.map unitHole)) = _
        simp [cwAux_cons, show isSpaceC ' ' = true from by decide]
      rw [h2, pyStrip_cons_space (show isSpaceC ' ' = true from by decide)]
      cases rest with
      | nil =>
        rw [List.filter_cons_of_neg (by rw [hu]; decide)]
        rfl
      | cons v r2 =>
        have h3 : cwAux true (joinTail ((v :: r2).map unitHole)) =
            cwAux true (joinW ((v :: r2).map unitHole)) := by
          rw [List.map_cons, joinTail_cons, joinW_cons]
          show cwAux true (' ' :: (unitHole v ++ joinTail (r2.map unitHole))) = _
          simp [cwAux_cons, show isSpaceC ' ' = true from by decide]
        rw [h3, pyStrip_cw_true, List.filter_cons_of_neg (by rw [hu]; decide),
          ih hrest]
    · have h1 : unitHole w = w := by rw [unitHole, if_neg hu]
      rw [List.map_cons, h1, joinW_cons]
      have hwchars : ∀ c ∈ w, isSpaceC c = false :=
        fun c hc => word_not_space ((hw.2 c hc).1)
      rw [cw_nonspace_append w _ hwchars, pyStrip_word_append w _ hw.1 hwchars,
        cstTail rest hrest, List.filter_cons_of_pos (by rw [Bool.eq_false_iff.mpr hu]; rfl), joinW_cons]

/-- Cleaning a canonical join filters out the unit words. -/
theorem clean_joinW (ws : List Str) (hg : GoodWords ws) :
    clean_ing (joinW ws) = joinW (ws.filter fun w => !(unitsList.contains w)) := by
  have hlw : lowerStr (joinW ws) = joinW ws :=
    map_id_of _ (joinW_chars (fun c => c.toLower = c) (by decide) ws
      fun w hw c hc => ((hg w hw).2 c hc).2.2)
  have hpar : removeParens (joinW ws) = joinW ws := by
    refine rp_id _ ?_
    refine joinW_chars (fun c => c ≠ '(') (by decide) ws ?_
    intro w hw c hc heq
    have h := ((hg w hw).2 c hc).1
    rw [heq] at h
    exact absurd h (by decide)
  have hun : removeUnits (joinW ws) = joinW (ws.map unitHole) := ru_joinW ws hg
  have huh_chars : ∀ w ∈ ws.map unitHole, ∀ c ∈ w,
      (isWordC c = true ∨ c = ' ') ∧ c.isDigit = false := by
    intro w hw c hc
    rw [List.mem_map] at hw
    obtain ⟨w0, hw0, rfl⟩ := hw
    by_cases hc0 : unitsList.contains w0 = true
    · rw [unitHole, if_pos hc0] at hc
      rcases List.mem_cons.1 hc with rfl | h
      · exact ⟨Or.inr rfl, by decide⟩
      · cases h
    · rw [unitHole, if_neg hc0] at hc
      exact ⟨Or.inl ((hg w0 hw0).2 c hc).1, ((hg w0 hw0).2 c hc).2.1⟩
  have hq : removeQuantity (joinW (ws.map unitHole)) = joinW (ws.map unitHole) := by
    refine rq_id _ ?_
    refine joinW_chars (fun c => c.isDigit = false) (by decide) _ ?_
    intro w hw c hc
    exact (huh_chars w hw c hc).2
  have hp : removePunct (joinW (ws.map unitHole)) = joinW (ws.map unitHole) := by
    refine punct_id _ ?_
    refine joinW_chars (fun c => (isWordC c || isSpaceC c) = true) (by decide) _ ?_
    intro w hw c hc
    rcases (huh_chars w hw c hc).1 with h | h
    · rw [h]
      rfl
    · subst h
      decide
  rw [clean_ing, hlw, hpar, hun, hq, hp]
  exact csl_joinW_holes ws hg

/-- The head of a `dropWhile` fails the predicate. -/
theorem head_dropWhile_neg {p : Char → Bool} :
    ∀ (l : List Char) (b : Char) (t : List Char), l.dropWhile p = b :: t → p b = false := by
  intro l
  induction l with
  | nil => intro b t h; cases h
  | cons a rest ih =>
    intro b t h
    rw [List.dropWhile_cons] at h
    by_cases ha : p a = true
    · rw [if_pos ha] at h
      exact ih b t h
    · rw [if_neg ha] at h
      injection h with h1 _
      subst h1
      exact Bool.eq_false_iff.mpr ha

/-! ## Canonical form of cleaned strings -/

/-- Collapse-and-strip of any word-or-space string is a space-joined
list of non-empty word runs whose characters come from the input. -/
theorem strip_collapse_words : ∀ (n : ℕ) (z : Str), z.length ≤ n →
    (∀ c ∈ z, isWordC c = true ∨ isSpaceC c = true) →
    ∃ ws : List Str, (∀ w ∈ ws, w ≠ [] ∧ ∀ c ∈ w, isWordC c = true ∧ c ∈ z) ∧
      pyStrip (cwAux false z) = joinW ws := by
  intro n
  induction n with
  | zero =>
    intro z hz _
    have hznil : z = [] := List.length_eq_zero.1 (Nat.le_zero.1 hz)
    subst hznil
    exact ⟨[], ⟨fun w hw => absurd hw (List.not_mem_nil w), rfl⟩⟩
  | succ n ih =>
    intro z hz hcls
    cases z with
    | nil => exact ⟨[], ⟨fun w hw => absurd hw (List.not_mem_nil w), rfl⟩⟩
    | cons a r =>
      by_cases hsp : isSpaceC a = true
      · have h1 : cwAux false (a :: r) = ' ' :: cwAux true r := by
          simp [cwAux_cons, hsp]
        have hlen : (r.dropWhile isSpaceC).length ≤ n := by
          have h2 := (List.dropWhile_sublist (l := r) isSpaceC).length_le
          simp only [List.length_cons] at hz
          omega
        obtain ⟨ws, hws, heq⟩ := ih (r.dropWhile isSpaceC) hlen
          (fun c hc =>
            hcls c (List.mem_cons_of_mem a ((List.dropWhile_sublist _).mem hc)))
        refine ⟨ws, ?_, ?_⟩
        · intro w hw
          refine ⟨(hws w hw).1, ?_⟩
          intro c hc
          exact ⟨((hws w hw).2 c hc).1,
            List.mem_cons_of_mem a ((List.dropWhile_sublist _).mem ((hws w hw).2 c hc).2)⟩
        · rw [h1, pyStrip_cons_space (show isSpaceC ' ' = true from by decide),
            cw_true_eq, heq]
      · have hw : isWordC a = true := by
          rcases hcls a (List.mem_cons_self a r) with h | h
          · exact h
          · exact absurd h hsp
        have htw : (a :: r).takeWhile isWordC = a :: r.takeWhile isWordC := by
          rw [List.takeWhile_cons, if_pos hw]
        have hdw : (a :: r).dropWhile isWordC = r.dropWhile isWordC := by
          rw [List.dropWhile_cons, if_pos hw]
        have hsplit2 : a :: r = (a :: r.takeWhile isWordC) ++ r.dropWhile isWordC := by
          rw [← htw, ← hdw]
          exact (List.takeWhile_append_dropWhile isWordC (a :: r)).symm
        have hWchars : ∀ c ∈ (a :: r.takeWhile isWordC), isWordC c = true := by
          intro c hc
          rcases List.mem_cons.1 hc with rfl | hc2
          · exact hw
          · exact List.mem_takeWhile_imp hc2
        have hWns : ∀ c ∈ (a :: r.takeWhile isWordC), isSpaceC c = false :=
          fun c hc => word_not_space (hWchars c hc)
        have hWmem : ∀ c ∈ (a :: r.takeWhile isWordC), c ∈ a :: r := by
          intro c hc
          rcases List.mem_cons.1 hc with rfl | hc2
          · exact List.mem_cons_self _ _
          · exact List.mem_cons_of_mem a ((List.takeWhile_sublist _).mem hc2)
        have hmain : pyStrip (cwAux false (a :: r)) =
            (a :: r.takeWhile isWordC) ++
              dropTrailing (cwAux false (r.dropWhile isWordC)) := by
          conv_lhs => rw [hsplit2]
          rw [cw_nonspace_append _ _ hWns,
            pyStrip_word_append _ _ (List.cons_ne_nil _ _) hWns]
        cases hz' : r.dropWhile isWordC with
        | nil =>
          refine ⟨[a :: r.takeWhile isWordC], ?_, ?_⟩
          · intro w hw2
            rcases List.mem_cons.1 hw2 with rfl | h
            · exact ⟨List.cons_ne_nil _ _, fun c hc => ⟨hWchars c hc, hWmem c hc⟩⟩
            · cases h
          · rw [hmain, hz', joinW_cons]
            rfl
        | cons s r1 =>
          have hs_space : isSpaceC s = true := by
            have hsw : isWordC s = false := head_dropWhile_neg r s r1 hz'
            have hsmem : s ∈ a :: r := by
              have hs1 : s ∈ r.dropWhile isWordC := by
                rw [hz']
                exact List.mem_cons_self _ _
              exact List.mem_cons_of_mem a ((List.dropWhile_sublist _).mem hs1)
            rcases hcls s hsmem with h | h
            · rw [hsw] at h
              exact absurd h (by simp)
            · exact h
          have hcw1 : cwAux false (s :: r1) = ' ' :: cwAux false (r1.dropWhile isSpaceC) := by
            simp [cwAux_cons, hs_space, cw_true_eq]
          have hlen1 : (r1.dropWhile isSpaceC).length ≤ n := by
            have h1 := (List.dropWhile_sublist (l := r1) isSpaceC).length_le
            have h2 := (List.dropWhile_sublist (l := r) isWordC).length_le
            rw [hz'] at h2
            simp only [List.length_cons] at h2 hz
            omega
          have hmem1 : ∀ c ∈ r1.dropWhile isSpaceC, isWordC c = true ∨ isSpaceC c = true := by
            intro c hc
            have h2 : c ∈ r1 := (List.dropWhile_sublist _).mem hc
            have h3 : c ∈ r.dropWhile isWordC := by
              rw [hz']
              exact List.mem_cons_of_mem s h2
            exact hcls c (List.mem_cons_of_mem a ((List.dropWhile_sublist _).mem h3))
          obtain ⟨ws2, hws2, heq2⟩ := ih (r1.dropWhile isSpaceC) hlen1 hmem1
          have hXstrip : dropTrailing (cwAux false (r1.dropWhile isSpaceC)) = joinW ws2 := by
            cases hr1' : r1.dropWhile isSpaceC with
            | nil =>
              rw [hr1'] at heq2
              exact heq2
            | cons c t =>
              have hcns : isSpaceC c = false := head_dropWhile_neg r1 c t hr1'
              rw [hr1'] at heq2
              have hcw2 : cwAux false (c :: t) = c :: cwAux false t := by
                simp [cwAux_cons, hcns]
              rw [hcw2] at heq2 ⊢
              rw [← pyStrip_head_nonspace hcns]
              exact heq2
          refine ⟨(a :: r.takeWhile isWordC) :: ws2, ?_, ?_⟩
          · intro w hw2
            rcases List.mem_cons.1 hw2 with rfl | h
            · exact ⟨List.cons_ne_nil _ _, fun c hc => ⟨hWchars c hc, hWmem c hc⟩⟩
            · refine ⟨(hws2 w h).1, fun c hc => ⟨((hws2 w h).2 c hc).1, ?_⟩⟩
              have h1 := ((hws2 w h).2 c hc).2
              have h2 : c ∈ r1 := (List.dropWhile_sublist _).mem h1
              have h3 : c ∈ r.dropWhile isWordC := by
                rw [hz']
                exact List.mem_cons_of_mem s h2
              exact List.mem_cons_of_mem a ((List.dropWhile_sublist _).mem h3)
          · rw [hmain, hz', hcw1, dt_cons_space, hXstrip, joinW_cons]
            congr 1
            cases ws2 with
            | nil => simp [joinW, joinTail]
            | cons v vs =>
              have hne : joinW (v :: vs) ≠ [] := by
                rw [joinW_cons]
                exact List.append_ne_nil_of_left_ne_nil
                  (hws2 v (List.mem_cons_self _ _)).1 _
              rw [if_neg hne, joinTail_cons, joinW_cons]

/-- Every cleaned string is a canonical space-joined list of good
words. -/
theorem clean_canonical (s : Str) : ∃ ws, GoodWords ws ∧ clean_ing s = joinW ws := by
  obtain ⟨ws, hws, heq⟩ := strip_collapse_words
    (removePunct (removeQuantity (removeUnits (removeParens (lowerStr s))))).length
    _ (le_refl _) punct_wordspace
  refine ⟨ws, ?_, heq⟩
  intro w hw
  refine ⟨(hws w hw).1, ?_⟩
  intro c hc
  obtain ⟨hcw, hcz⟩ := (hws w hw).2 c hc
  exact ⟨hcw, punct_out_nodigit s c hcz, punct_out_lower s c hcz⟩

/-! ## C4: normalizer idempotence -/

/-- C4 counterexample: `clean("100g") = "g"` (the unit `g` is glued to
the digits, so the unit pass sees no word boundary and the quantity
pass later exposes it), but `clean("g") = ""`; hence
`clean(clean(s)) ≠ clean(s)` at `s = "100g"`. -/
theorem C4_counterexample :
    clean_ing (clean_ing "100g".toList) ≠ clean_ing "100g".toList := by decide

/-- C4 (amended): `clean_ing` is not idempotent (see the `"100g"`
counterexample), but a second application reaches a fixed point: for
every string `s`, `clean(clean(clean(s))) = clean(clean(s))`. -/
theorem C4_amended (s : Str) :
    clean_ing (clean_ing (clean_ing s)) = clean_ing (clean_ing s) := by
  obtain ⟨ws, hg, heq⟩ := clean_canonical s
  rw [heq, clean_joinW ws hg]
  have hg2 : GoodWords (ws.filter fun w => !(unitsList.contains w)) :=
    fun w hw => hg w (List.mem_of_mem_filter hw)
  rw [clean_joinW _ hg2]
  congr 1
  exact List.filter_eq_self.mpr fun a ha => (List.mem_filter.1 ha).2

/-! ## C7: match-count consistency and partition of the cleaned list -/

theorem subScan_found_none {r e : Str} :
    ∀ l, subScan r l = .found e none → e = r := by
  intro l
  induction l with
  | nil => intro h; exact TermOutcome.noConfusion h
  | cons u rest ih =>
    intro h
    simp only [subScan] at h
    by_cases h1 : ((get_sub r).contains u) = true
    · rw [if_pos h1] at h
      injection h with _ h2'
      exact Option.noConfusion h2'
    · rw [if_neg h1] at h
      by_cases h2 : ((get_sub u).contains r) = true
      · rw [if_pos h2] at h
        injection h with h1' _
        exact h1'.symm
      · rw [if_neg h2] at h
        exact ih h

theorem subScan_found_some {r e u0 : Str} :
    ∀ l, subScan r l = .found e (some u0) → e = annot r u0 := by
  intro l
  induction l with
  | nil => intro h; exact TermOutcome.noConfusion h
  | cons u rest ih =>
    intro h
    simp only [subScan] at h
    by_cases h1 : ((get_sub r).contains u) = true
    · rw [if_pos h1] at h
      injection h with h1' h2'
      injection h2' with h3'
      rw [← h3']
      exact h1'.symm
    · rw [if_neg h1] at h
      by_cases h2 : ((get_sub u).contains r) = true
      · rw [if_pos h2] at h
        injection h with _ h2'
        exact Option.noConfusion h2'
      · rw [if_neg h2] at h
        exact ih h

theorem matchTerm_found_none {user : List Str} {r e : Str}
    (h : matchTerm user r = .found e none) : e = r := by
  unfold matchTerm at h
  by_cases hd : (user.any fun u => overlapB r u) = true
  · rw [if_pos hd] at h
    injection h with h1 _
    exact h1.symm
  · rw [if_neg hd] at h
    exact subScan_found_none user h

theorem matchTerm_found_some {user : List Str} {r e u0 : Str}
    (h : matchTerm user r = .found e (some u0)) : e = annot r u0 := by
  unfold matchTerm at h
  by_cases hd : (user.any fun u => overlapB r u) = true
  · rw [if_pos hd] at h
    injection h with _ h2'
    exact Option.noConfusion h2'
  · rw [if_neg hd] at h
    exact subScan_found_some user h

theorem stripAnnot_self {r : Str} (h : ∀ c ∈ r, c ≠ '(') : stripAnnot r = r := by
  rw [stripAnnot]
  exact List.takeWhile_eq_self_iff.2 fun c hc => by simp [h c hc]

theorem takeWhile_append_of_all {p : Char → Bool} :
    ∀ (r l : List Char), (∀ c ∈ r, p c = true) →
      List.takeWhile p (r ++ l) = r ++ List.takeWhile p l := by
  intro r
  induction r with
  | nil => intro l _; rfl
  | cons a r' ih =>
    intro l h
    have : (a :: r') ++ l = a :: (r' ++ l) := rfl
    rw [this, List.takeWhile_cons, if_pos (h a (List.mem_cons_self a r')),
      ih l fun c hc => h c (List.mem_cons_of_mem a hc)]
    rfl

theorem stripAnnot_annot {r : Str} (u : Str) (h : ∀ c ∈ r, c ≠ '(') :
    stripAnnot (annot r u) = r := by
  rw [stripAnnot, annot]
  have hs : "(sub->".toList = '(' :: "sub->".toList := by decide
  rw [hs]
  have heq : r ++ ('(' :: "sub->".toList) ++ u ++ [')'] =
      r ++ ('(' :: ("sub->".toList ++ u ++ [')'])) := by
    simp [List.append_assoc]
  rw [heq, takeWhile_append_of_all r _ fun c hc => by simp [h c hc]]
  rw [List.takeWhile_cons]
  simp

/-- Stripping annotations, `present ++ missing` is a permutation of
the full cleaned ingredient list. -/
theorem matchLists_perm (user : List Str) :
    ∀ L : List Str, (∀ r ∈ L, ∀ c ∈ r, c ≠ '(') →
      List.Perm (((matchLists user L).1.map stripAnnot) ++ (matchLists user L).2.1) L := by
  intro L
  induction L with
  | nil => intro _; simp [matchLists]
  | cons r rest ih =>
    intro h
    have hr : ∀ c ∈ r, c ≠ '(' := h r (List.mem_cons_self r rest)
    have hrest : ∀ r' ∈ rest, ∀ c ∈ r', c ≠ '(' :=
      fun r' hr' => h r' (List.mem_cons_of_mem r hr')
    have hihp := ih hrest
    cases hm : matchTerm user r with
    | miss =>
      have hstep : matchLists user (r :: rest) =
          ((matchLists user rest).1, r :: (matchLists user rest).2.1,
            (matchLists user rest).2.2) := by
        simp only [matchLists]
        rw [hm]
      rw [hstep]
      exact List.perm_middle.trans (List.Perm.cons r hihp)
    | found e osub =>
      cases osub with
      | none =>
        have he : e = r := matchTerm_found_none hm
        have hstep : matchLists user (r :: rest) =
            (e :: (matchLists user rest).1, (matchLists user rest).2.1,
              (matchLists user rest).2.2) := by
          simp only [matchLists]
          rw [hm]
        rw [hstep, List.map_cons, he, stripAnnot_self hr]
        exact List.Perm.cons r hihp
      | some u =>
        have he : e = annot r u := matchTerm_found_some hm
        have hstep : matchLists user (r :: rest) =
            (e :: (matchLists user rest).1, (matchLists user rest).2.1,
              (r, u) :: (matchLists user rest).2.2) := by
          simp only [matchLists]
          rw [hm]
        rw [hstep, List.map_cons, he, stripAnnot_annot u hr]
        exact List.Perm.cons r hihp

/-- C7: every record built by the matcher/ranker has
`match_count = len(present)`, and `present` (annotations stripped)
together with `missing` is exactly the recipe's full cleaned
ingredient sequence, as a multiset (no duplicates, no omissions). -/
theorem C7_match_consistency (ings : List Str) (row : Row) (score : ℚ) :
    (mkOut (ings.map clean_ing) row score).match_count =
      (mkOut (ings.map clean_ing) row score).present.length ∧
    List.Perm
      (((mkOut (ings.map clean_ing) row score).present.map stripAnnot) ++
        (mkOut (ings.map clean_ing) row score).missing)
      (clean_list row.ingredients) := by
  constructor
  · rfl
  · have hnp : ∀ r ∈ clean_list row.ingredients, ∀ c ∈ r, c ≠ '(' := by
      intro r hr c hc
      rw [clean_list, List.mem_map] at hr
      obtain ⟨r0, _, rfl⟩ := hr
      exact clean_no_paren r0 c hc
    exact matchLists_perm (ings.map clean_ing) (clean_list row.ingredients) hnp

/-- Witness for C10 at `ings = ["2 cups"]` (which cleans to the empty
string), `raw = ["rice", "onion"]`. -/
theorem C10_witness :
    (∃ u ∈ ["2 cups".toList], clean_ing u = []) ∧
      matchLists (["2 cups".toList].map clean_ing)
          (clean_list ["rice".toList, "onion".toList]) =
        (clean_list ["rice".toList, "onion".toList], [], []) :=
  ⟨by decide, (C10_empty_user_term ["2 cups".toList] ["rice".toList, "onion".toList]
    (by decide)).1⟩

end RecipeApp
